import Mathlib

/-
  Verification development for the EssentiaSwift repository slice.

  The only source file is
  CommonSource/C++/essentia/utils/extractor_music/MusicDescriptorsSet.h,
  which declares the class MusicDescriptorSet (a static string constant
  plus a protected Pool member).  The surrounding streaming dataflow
  engine (graph, scheduler, typed buffers, results pool, algorithm
  factory) is specified in spec.md but its code is not part of the
  slice; those components are modelled here from the spec's words and
  are marked as such in their doc comments.  The MusicDescriptorSet
  declaration itself is translated directly from the header.
-/

namespace Essentia

/-- Modelled from the spec: the homogeneous typed values carried by
buffers and stored in the results pool (spec sections 2 and 3).  Two
value kinds suffice to make the type discipline non-trivial; reals are
modelled as integers to stay in a decidable fragment. -/
inductive Value where
  | real (n : Int)
  | str (s : String)
deriving DecidableEq

/-- Modelled from the spec: the declared type of a port or buffer. -/
inductive VType where
  | tReal
  | tStr
deriving DecidableEq

/-- Modelled from the spec: whether a value has a declared type. -/
def Value.hasTy : Value → VType → Bool
  | .real _, .tReal => true
  | .str _, .tStr => true
  | _, _ => false

/-- Modelled from the spec: the error taxonomy of section 7
(TypeMismatch, CycleDetected, DanglingPort, CapacityExceeded,
UnknownAlgorithm, DuplicateAlgorithm, InvalidConfiguration,
ModeConflict, KeyNotFound, Cancelled). -/
inductive Err where
  | typeMismatch
  | cycleDetected
  | danglingPort
  | capacityExceeded
  | unknownAlgorithm
  | duplicateAlgorithm
  | invalidConfiguration
  | modeConflict
  | keyNotFound
  | cancelled
deriving DecidableEq

/-- Modelled from the spec: a results-pool entry is either a single
most-recent value (overwrite semantics) or an ordered sequence of
appended values (section 3, ResultsPool). -/
inductive Entry where
  | single (v : Value)
  | multi (vs : List Value)
deriving DecidableEq

/-- Modelled from the spec: the two mutually exclusive per-key modes of
the results pool. -/
inductive Mode where
  | single
  | multi
deriving DecidableEq

/-- Mode of a pool entry. -/
def Entry.modeOf : Entry → Mode
  | .single _ => .single
  | .multi _ => .multi

/-- Modelled from the spec: the ResultsPool, a mapping from opaque
string keys to entries (section 4.6).  Represented as an association
list in insertion order. -/
structure ResultsPool where
  entries : List (String × Entry)
deriving DecidableEq

/-- Replace the entry stored at a key, or append a fresh binding at the
end when the key is absent. -/
def upsert (k : String) (e : Entry) : List (String × Entry) → List (String × Entry)
  | [] => [(k, e)]
  | (k', e') :: rest => if k' = k then (k, e) :: rest else (k', e') :: upsert k e rest

/-- Look up the first binding of a key in an association list. -/
def lookupE (k : String) : List (String × Entry) → Option Entry
  | [] => none
  | (k', e) :: rest => if k' = k then some e else lookupE k rest

/-- The empty pool, the state of a freshly created ResultsPool. -/
def ResultsPool.empty : ResultsPool := ⟨[]⟩

/-- Keys currently bound in the pool. -/
def ResultsPool.keys (p : ResultsPool) : List String := p.entries.map Prod.fst

/-- Mode currently declared for a key, if any. -/
def ResultsPool.modeOf (p : ResultsPool) (k : String) : Option Mode :=
  (lookupE k p.entries).map Entry.modeOf

/-- Modelled from the spec: set(key, value) establishes or overwrites a
single-value entry; fails with ModeConflict if the key was previously
used in append mode (section 4.6). -/
def ResultsPool.set (p : ResultsPool) (k : String) (v : Value) : Except Err ResultsPool :=
  match lookupE k p.entries with
  | some (.multi _) => .error .modeConflict
  | _ => .ok ⟨upsert k (.single v) p.entries⟩

/-- Modelled from the spec: add(key, value) appends to a multi-value
entry; fails with ModeConflict symmetrically (section 4.6). -/
def ResultsPool.add (p : ResultsPool) (k : String) (v : Value) : Except Err ResultsPool :=
  match lookupE k p.entries with
  | some (.single _) => .error .modeConflict
  | some (.multi vs) => .ok ⟨upsert k (.multi (vs ++ [v])) p.entries⟩
  | none => .ok ⟨upsert k (.multi [v]) p.entries⟩

/-- Modelled from the spec: get(key) fails with KeyNotFound if absent
(section 4.6). -/
def ResultsPool.get (p : ResultsPool) (k : String) : Except Err Entry :=
  match lookupE k p.entries with
  | none => .error .keyNotFound
  | some e => .ok e

/-- Merge one entry of the other pool into the accumulated pool,
applying the mode-conflict rule: absent keys are inserted, same-mode
single entries are overwritten, same-mode multi entries are
concatenated, and differing modes fail with ModeConflict. -/
def mergeOne (p : ResultsPool) (k : String) (e : Entry) : Except Err ResultsPool :=
  match lookupE k p.entries, e with
  | none, e => .ok ⟨p.entries ++ [(k, e)]⟩
  | some (.single _), .single v => .ok ⟨upsert k (.single v) p.entries⟩
  | some (.multi vs), .multi ws => .ok ⟨upsert k (.multi (vs ++ ws)) p.entries⟩
  | some _, _ => .error .modeConflict

/-- Fold mergeOne over a list of bindings, stopping at the first
failure. -/
def mergeInto (p : ResultsPool) : List (String × Entry) → Except Err ResultsPool
  | [] => .ok p
  | (k, e) :: rest =>
    match mergeOne p k e with
    | .error er => .error er
    | .ok p' => mergeInto p' rest

/-- Modelled from the spec: merge(otherPool) combines two pools,
applying the same mode-conflict rule across the union of keys
(section 4.6). -/
def ResultsPool.merge (p q : ResultsPool) : Except Err ResultsPool :=
  mergeInto p q.entries

/-- Modelled from the spec: a configuration bag, a mapping of option
name to value (section 3, DescriptorSet). -/
abbrev Config := List (String × Value)

/-- Modelled from the spec: the kinds of processing nodes of the
dataflow graph (section 2): a SourceNode pulling from a finite
in-memory sequence until exhausted, a ProcessingNode computing one
output value per synchronous round from one value of each input, and a
SinkNode (PoolStorage) writing every received value into the
ResultsPool under a fixed key in append mode.  Port types are declared
per node. -/
inductive NodeKind where
  | source (ty : VType) (data : List Value)
  | proc (inTy outTy : VType) (f : List Value → Value)
  | sink (inTy : VType) (key : String)

/-- Whether a node kind is a source. -/
def NodeKind.isSourceK : NodeKind → Bool
  | .source _ _ => true
  | _ => false

/-- Whether a node kind is a sink. -/
def NodeKind.isSinkK : NodeKind → Bool
  | .sink _ _ => true
  | _ => false

/-- Declared output type of a node kind. -/
def NodeKind.outTyOf : NodeKind → VType
  | .source ty _ => ty
  | .proc _ o _ => o
  | .sink i _ => i

/-- Declared input type of a node kind. -/
def NodeKind.inTyOf : NodeKind → VType
  | .source ty _ => ty
  | .proc i _ _ => i
  | .sink i _ => i

/-- External data held by a source node kind. -/
def NodeKind.srcData : NodeKind → List Value
  | .source _ d => d
  | _ => []

/-- Modelled from the spec: a Graph (Network), an acyclic directed
composition of nodes connected by typed buffers (section 4.3).  Nodes
are indexed 0, ..., n-1 in creation order; each buffer e connects the
producer src e to the consumer dst e and carries values of the declared
type ty e.  Acyclicity is enforced structurally by requiring
src e < dst e, so node indices form a topological order, matching the
spec's tie-break rule that creation order and topological order
coincide (section 4.4). -/
structure Graph where
  n : Nat
  kind : Nat → NodeKind
  nEdges : Nat
  src : Nat → Nat
  dst : Nat → Nat
  ty : Nat → VType

/-- Input buffers of a node, in buffer-index order. -/
def inputsOf (g : Graph) (i : Nat) : List Nat :=
  (List.range g.nEdges).filter (fun e => g.dst e == i)

/-- Output buffers of a node, in buffer-index order. -/
def outputsOf (g : Graph) (i : Nat) : List Nat :=
  (List.range g.nEdges).filter (fun e => g.src e == i)

/-- Modelled from the spec: the mutable execution state of one run of a
Graph.  Each buffer holds its pending values (already-consumed values
are removed) and an end-of-stream mark (section 4.1); each node records
whether it has reached the terminal Finished state (section 4.2);
sources track their not-yet-emitted data; sinks write into the shared
ResultsPool. -/
structure State where
  queue : Nat → List Value
  eos : Nat → Bool
  remaining : Nat → List Value
  finished : Nat → Bool
  pool : ResultsPool

/-- Modelled from the spec: isDrained() is true when end-of-stream is
marked and all values have been consumed (section 4.1). -/
def State.isDrained (s : State) (e : Nat) : Prop :=
  s.queue e = [] ∧ s.eos e = true

/-- Initial state of a run: empty buffers, no end-of-stream marks, all
source data pending, no node finished, an empty pool. -/
def initState (g : Graph) : State :=
  { queue := fun _ => []
    eos := fun _ => false
    remaining := fun i => (g.kind i).srcData
    finished := fun _ => false
    pool := ResultsPool.empty }

/-- Modelled from the spec: the scheduler's readiness predicate
(canProcess, section 4.2).  A source is eligible until exhausted; a
processing or sink node is ready when every input buffer holds a value
(one synchronous round is possible) or when some input buffer is empty
with end-of-stream marked (the node must flush and finish, the Draining
transition of section 4.2). -/
def readyB (g : Graph) (s : State) (i : Nat) : Bool :=
  match g.kind i with
  | .source _ _ => true
  | _ =>
    ((inputsOf g i).all fun e => !(s.queue e).isEmpty) ||
      ((inputsOf g i).any fun e => (s.queue e).isEmpty && s.eos e)

/-- A node is runnable when it is not Finished and ready. -/
def runnable (g : Graph) (s : State) (i : Nat) : Bool :=
  !s.finished i && readyB g s i

/-- Append a value into the pool under a key, keeping the pool
unchanged if the write fails. -/
def addKeep (p : ResultsPool) (k : String) (v : Value) : ResultsPool :=
  match p.add k v with
  | .ok p' => p'
  | .error _ => p

/-- Modelled from the spec: one process() invocation of node i
(section 4.2).  A source emits its next pending value into every output
buffer, or, when exhausted, marks end-of-stream on its outputs and
finishes.  A processing node with a value on every input consumes one
value from each input and writes the computed value to every output;
when some input is dry it flushes: it consumes whatever is left in its
input buffers, marks end-of-stream on its outputs and finishes.  A sink
behaves likewise but writes each consumed value into the ResultsPool in
append mode under its fixed key. -/
def fire (g : Graph) (s : State) (i : Nat) : State :=
  match g.kind i with
  | .source _ _ =>
    match s.remaining i with
    | v :: rest =>
      { s with
        queue := fun e => if e ∈ outputsOf g i then s.queue e ++ [v] else s.queue e
        remaining := fun j => if j = i then rest else s.remaining j }
    | [] =>
      { s with
        eos := fun e => if e ∈ outputsOf g i then true else s.eos e
        finished := fun j => if j = i then true else s.finished j }
  | .proc _ _ f =>
    if (inputsOf g i).all (fun e => !(s.queue e).isEmpty) then
      { s with
        queue := fun e =>
          if e ∈ inputsOf g i then (s.queue e).tail
          else if e ∈ outputsOf g i then
            s.queue e ++ [f ((inputsOf g i).map fun e2 => (s.queue e2).headD (Value.real 0))]
          else s.queue e }
    else
      { s with
        queue := fun e => if e ∈ inputsOf g i then [] else s.queue e
        eos := fun e => if e ∈ outputsOf g i then true else s.eos e
        finished := fun j => if j = i then true else s.finished j }
  | .sink _ key =>
    if (inputsOf g i).all (fun e => !(s.queue e).isEmpty) then
      { s with
        queue := fun e => if e ∈ inputsOf g i then (s.queue e).tail else s.queue e
        pool :=
          ((inputsOf g i).map fun e2 => (s.queue e2).headD (Value.real 0)).foldl
            (fun p v => addKeep p key v) s.pool }
    else
      { s with
        queue := fun e => if e ∈ inputsOf g i then [] else s.queue e
        eos := fun e => if e ∈ outputsOf g i then true else s.eos e
        finished := fun j => if j = i then true else s.finished j }

/-- Linear scan for the first runnable node at index i or above,
examining at most fuel indices. -/
def pickFrom (g : Graph) (s : State) : Nat → Nat → Option Nat
  | _, 0 => none
  | i, fuel + 1 => if runnable g s i then some i else pickFrom g s (i + 1) fuel

/-- Modelled from the spec: the scheduler's selection rule, picking the
runnable node that is least in the deterministic topological/creation
order (the tie-break of section 4.4). -/
def pick (g : Graph) (s : State) : Option Nat := pickFrom g s 0 g.n

/-- Whether every node of the graph is Finished. -/
def allFinishedB (g : Graph) (s : State) : Bool := (List.range g.n).all s.finished

/-- Result of one scheduler decision. -/
inductive StepRes where
  | next (s : State)
  | done (s : State)
  | stalled (s : State)

/-- Modelled from the spec: one scheduler step (section 4.4).  Invoke
the least runnable node; when no node is runnable the run ends if every
node is Finished, and otherwise the run fails with the fatal
StalledGraph error. -/
def step (g : Graph) (s : State) : StepRes :=
  match pick g s with
  | some i => .next (fire g s i)
  | none => if allFinishedB g s then .done s else .stalled s

/-- Outcome of driving the scheduler for a bounded number of steps. -/
inductive Outcome where
  | done (s : State)
  | stalled (s : State)
  | fuelOut (s : State)

/-- Modelled from the spec: run() drives the graph by repeated
scheduler steps (section 4.3); fuel bounds the number of steps so that
the driver is executable. -/
def runFor (g : Graph) : Nat → State → Outcome
  | 0, s => .fuelOut s
  | fuel + 1, s =>
    match step g s with
    | .next s' => runFor g fuel s'
    | .done s' => .done s'
    | .stalled s' => .stalled s'

/-- State carried by a run outcome. -/
def outState : Outcome → State
  | .done s => s
  | .stalled s => s
  | .fuelOut s => s

/-- Final pool of a complete run of a graph, if the run ends within the
given number of steps. -/
def runToPool (g : Graph) (fuel : Nat) : Option ResultsPool :=
  match runFor g fuel (initState g) with
  | .done s => some s.pool
  | _ => none

/-- Modelled from the spec: validity of a finalized graph
(section 4.3).  Every buffer runs from a lower to a higher node index
(acyclicity and in-range endpoints), sources have no input buffers,
every processing and sink node has at least one input buffer (no
dangling input side), and sinks have no output buffers. -/
abbrev WellFormed (g : Graph) : Prop :=
  (∀ e, e < g.nEdges → g.src e < g.dst e ∧ g.dst e < g.n) ∧
  (∀ i, i < g.n → (g.kind i).isSourceK = true → inputsOf g i = []) ∧
  (∀ i, i < g.n → (g.kind i).isSourceK = false → inputsOf g i ≠ []) ∧
  (∀ i, i < g.n → (g.kind i).isSinkK = true → outputsOf g i = [])

/-- Modelled from the spec: type-consistency of a graph (connect's
TypeMismatch check, section 4.3): every buffer's declared type matches
the declared output type of its producer and the declared input type of
its consumer, and every source holds data of its declared type. -/
abbrev WellTyped (g : Graph) : Prop :=
  (∀ e, e < g.nEdges →
    g.ty e = (g.kind (g.src e)).outTyOf ∧ g.ty e = (g.kind (g.dst e)).inTyOf) ∧
  (∀ i, i < g.n → ∀ v ∈ (g.kind i).srcData, v.hasTy (g.kind i).outTyOf = true)

/-- Modelled from the spec: the operations a client may perform on a
results pool during its lifetime. -/
inductive PoolOp where
  | set (k : String) (v : Value)
  | add (k : String) (v : Value)

/-- Apply one pool operation. -/
def applyPoolOp (p : ResultsPool) : PoolOp → Except Err ResultsPool
  | .set k v => p.set k v
  | .add k v => p.add k v

/-- Outcome of one pool operation on the pool state: a failed operation
reports its error to the caller and leaves the pool unchanged, and the
pool's lifetime continues. -/
def poolStep (p : ResultsPool) (op : PoolOp) : ResultsPool :=
  match applyPoolOp p op with
  | .ok p' => p'
  | .error _ => p

/-- Run a sequence of pool operations over the pool's lifetime. -/
def runPoolOps (ops : List PoolOp) (p : ResultsPool) : ResultsPool :=
  ops.foldl poolStep p

/-- Modelled from the spec: the AlgorithmFactory, an explicit registry
object mapping a string identifier to a constructor for a node
(sections 4.5 and 9). -/
structure AlgorithmFactory where
  registry : List (String × (Config → Except Err NodeKind))

/-- Modelled from the spec: create(name, config) fails with
UnknownAlgorithm if the name is unregistered, and otherwise invokes the
registered constructor; the factory state after the call is returned
alongside the result. -/
def AlgorithmFactory.create (f : AlgorithmFactory) (name : String) (cfg : Config) :
    Except Err NodeKind × AlgorithmFactory :=
  match f.registry.lookup name with
  | none => (.error .unknownAlgorithm, f)
  | some ctor => (ctor cfg, f)

/-- Modelled from the spec: register(name, constructorFn) associates a
string key with a node constructor; duplicate registration of the same
name is an error DuplicateAlgorithm (section 4.5). -/
def AlgorithmFactory.registerAlg (f : AlgorithmFactory) (name : String)
    (ctor : Config → Except Err NodeKind) : Except Err AlgorithmFactory :=
  match f.registry.lookup name with
  | some _ => .error .duplicateAlgorithm
  | none => .ok ⟨f.registry ++ [(name, ctor)]⟩

/-- Identity processing function: forwards the single input value of
each round. -/
def idF : List Value → Value := fun vs => vs.headD (Value.real 0)

/-- Modelled from the spec: the scenario graph of section 8, one
SourceNode emitting the sequence 1, 2, 3, one identity ProcessingNode,
and one Sink writing to the key test.values in append mode. -/
def gDemo : Graph :=
  { n := 3
    kind := fun i =>
      match i with
      | 0 => .source .tReal [.real 1, .real 2, .real 3]
      | 1 => .proc .tReal .tReal idF
      | _ => .sink .tReal "test.values"
    nEdges := 2
    src := fun e => match e with | 0 => 0 | _ => 1
    dst := fun e => match e with | 0 => 1 | _ => 2
    ty := fun _ => .tReal }

/-- Final state of one bounded demo run. -/
def demoEnd1 : State := outState (runFor gDemo 20 (initState gDemo))

/-- Final state of a second bounded demo run of the same graph on the
same input. -/
def demoEnd2 : State := outState (runFor gDemo 25 (initState gDemo))

/-- Demo factory holding one registered algorithm. -/
def fDemo : AlgorithmFactory :=
  ⟨[("identity", fun _ => .ok (.proc .tReal .tReal idF))]⟩

/-- Modelled from the spec: terminating executions of the scheduler.
RunEnds g s t holds when the run started at state s ends (every node
Finished, no stall) in state t. -/
inductive RunEnds (g : Graph) : State → State → Prop where
  | fin : ∀ s t, step g s = .done t → RunEnds g s t
  | more : ∀ s s' t, step g s = .next s' → RunEnds g s' t → RunEnds g s t

/-- Scheduling invariant: execution proceeds node by node in creation
order.  At frontier k, exactly the nodes below k are Finished, a
buffer's end-of-stream mark is set exactly when its producer is
Finished, and every buffer whose consumer is Finished has been fully
consumed. -/
def Inv (g : Graph) (k : Nat) (s : State) : Prop :=
  k ≤ g.n ∧
  (∀ i, s.finished i = true ↔ i < k) ∧
  (∀ e, e < g.nEdges → (s.eos e = true ↔ g.src e < k)) ∧
  (∀ e, e < g.nEdges → g.dst e < k → s.queue e = [])

/-- Termination measure of the frontier node: pending source data for a
source, total pending input for a processing or sink node. -/
def cost (g : Graph) (s : State) (k : Nat) : Nat :=
  match g.kind k with
  | .source _ _ => (s.remaining k).length
  | _ => ((inputsOf g k).map fun e => (s.queue e).length).sum

/-- Access specifier of a C++ class member. -/
inductive Access where
  | acPublic
  | acProtected
  | acPrivate
deriving DecidableEq

/-- Kind of a C++ class member. -/
inductive MemberKind where
  | dataMember
  | memberFun
  | ctor
deriving DecidableEq

/-- One declared member of a C++ class. -/
structure CppMember where
  name : String
  access : Access
  isStatic : Bool
  kind : MemberKind
deriving DecidableEq

/-- The member list of class MusicDescriptorSet, translated from
CommonSource/C++/essentia/utils/extractor_music/MusicDescriptorsSet.h
lines 39-47: a public static const string nameSpace and a protected
Pool options, and nothing else (no constructors, no member
functions). -/
def musicDescriptorSetMembers : List CppMember :=
  [⟨"nameSpace", .acPublic, true, .dataMember⟩,
   ⟨"options", .acProtected, false, .dataMember⟩]

/-- The instance state of class MusicDescriptorSet, translated from the
header: the only non-static data member is the protected Pool options,
so a value of the class is determined by that pool. -/
structure MusicDescriptorSet where
  options : ResultsPool

/-- Default construction of MusicDescriptorSet: the class declares no
constructors, so the implicit default constructor default-constructs
the Pool member, leaving it empty; no validation of any kind runs. -/
def MusicDescriptorSet.defaultConstruct : MusicDescriptorSet := ⟨ResultsPool.empty⟩

/-- Construction of MusicDescriptorSet in the presence of a
configuration bag, as the header declares it: the class has no
constructor accepting a configuration, so the only construction is the
implicit default one; any configuration bag in the caller's hands is
ignored, no option is inspected or validated, and construction never
fails. -/
def MusicDescriptorSet.construct (_ : Config) : Except Err MusicDescriptorSet :=
  .ok ⟨ResultsPool.empty⟩

/-- Namespace of an instance as observed through the class: nameSpace
is a static member, one value per class shared by every instance; the
header declares it without defining its value, so the linked-in value
is taken as a parameter.  No instance field participates. -/
def MusicDescriptorSet.nameSpaceOf (classConstant : String) (_ : MusicDescriptorSet) :
    String := classConstant

/-! Lemmas about association-list lookup and update. -/

theorem lookupE_upsert_self (k : String) (e : Entry) :
    ∀ l : List (String × Entry), lookupE k (upsert k e l) = some e := by
  intro l
  induction l with
  | nil => simp [upsert, lookupE]
  | cons hd t ih =>
    obtain ⟨k', e'⟩ := hd
    by_cases h : k' = k
    · subst h
      simp [upsert, lookupE]
    · simp [upsert, lookupE, h, ih]

theorem lookupE_upsert_ne (k k' : String) (e : Entry) (hne : k' ≠ k) :
    ∀ l : List (String × Entry), lookupE k' (upsert k e l) = lookupE k' l := by
  intro l
  induction l with
  | nil => simp [upsert, lookupE, Ne.symm hne]
  | cons hd t ih =>
    obtain ⟨k₀, e₀⟩ := hd
    by_cases h : k₀ = k
    · subst h
      simp [upsert, lookupE, Ne.symm hne]
    · simp [upsert, lookupE, h, ih]

theorem lookupE_append_some (k : String) (e : Entry)
    (l l₂ : List (String × Entry)) (h : lookupE k l = some e) :
    lookupE k (l ++ l₂) = some e := by
  induction l with
  | nil => simp [lookupE] at h
  | cons hd t ih =>
    obtain ⟨k₀, e₀⟩ := hd
    by_cases hk : k₀ = k
    · subst hk
      simp [lookupE] at h ⊢
      exact h
    · simp [lookupE, hk] at h ⊢
      exact ih h

theorem lookupE_append_none (k : String)
    (l l₂ : List (String × Entry)) (h : lookupE k l = none) :
    lookupE k (l ++ l₂) = lookupE k l₂ := by
  induction l with
  | nil => simp
  | cons hd t ih =>
    obtain ⟨k₀, e₀⟩ := hd
    by_cases hk : k₀ = k
    · subst hk
      simp [lookupE] at h
    · simp [lookupE, hk] at h ⊢
      exact ih h

theorem lookupE_eq_none_iff (k : String) (l : List (String × Entry)) :
    lookupE k l = none ↔ k ∉ l.map Prod.fst := by
  induction l with
  | nil => simp [lookupE]
  | cons hd t ih =>
    obtain ⟨k₀, e₀⟩ := hd
    by_cases hk : k₀ = k
    · subst hk
      simp [lookupE]
    · simp [lookupE, hk, ih, Ne.symm hk]

/-! Lemmas about pool modes. -/

theorem add_ok_modeOf (p : ResultsPool) (k : String) (v : Value) (p' : ResultsPool)
    (h : p.add k v = .ok p') : p'.modeOf k = some .multi := by
  unfold ResultsPool.add at h
  cases hl : lookupE k p.entries with
  | none =>
    rw [hl] at h
    cases h
    simp [ResultsPool.modeOf, lookupE_upsert_self, Entry.modeOf]
  | some e =>
    cases e with
    | single w => rw [hl] at h; cases h
    | multi vs =>
      rw [hl] at h
      cases h
      simp [ResultsPool.modeOf, lookupE_upsert_self, Entry.modeOf]

theorem set_ok_modeOf (p : ResultsPool) (k : String) (v : Value) (p' : ResultsPool)
    (h : p.set k v = .ok p') : p'.modeOf k = some .single := by
  unfold ResultsPool.set at h
  cases hl : lookupE k p.entries with
  | none =>
    rw [hl] at h
    cases h
    simp [ResultsPool.modeOf, lookupE_upsert_self, Entry.modeOf]
  | some e =>
    cases e with
    | single w =>
      rw [hl] at h
      cases h
      simp [ResultsPool.modeOf, lookupE_upsert_self, Entry.modeOf]
    | multi vs => rw [hl] at h; cases h

theorem set_conflict_of_multi (p : ResultsPool) (k : String) (v : Value)
    (h : p.modeOf k = some .multi) : p.set k v = .error .modeConflict := by
  unfold ResultsPool.modeOf at h
  unfold ResultsPool.set
  cases hl : lookupE k p.entries with
  | none => rw [hl] at h; cases h
  | some e =>
    cases e with
    | single w => rw [hl] at h; simp [Entry.modeOf] at h
    | multi vs => rfl

theorem add_conflict_of_single (p : ResultsPool) (k : String) (v : Value)
    (h : p.modeOf k = some .single) : p.add k v = .error .modeConflict := by
  unfold ResultsPool.modeOf at h
  unfold ResultsPool.add
  cases hl : lookupE k p.entries with
  | none => rw [hl] at h; cases h
  | some e =>
    cases e with
    | single w => rfl
    | multi vs => rw [hl] at h; simp [Entry.modeOf] at h

theorem modeOf_mk_upsert (l : List (String × Entry)) (k₀ : String) (e : Entry) (k : String) :
    (ResultsPool.mk (upsert k₀ e l)).modeOf k =
      if k = k₀ then some e.modeOf else (ResultsPool.mk l).modeOf k := by
  by_cases hk : k = k₀
  · subst hk
    simp [ResultsPool.modeOf, lookupE_upsert_self]
  · simp [ResultsPool.modeOf, lookupE_upsert_ne k₀ k e hk, hk]

theorem modeOf_poolStep (p : ResultsPool) (op : PoolOp) (k : String) (m : Mode)
    (h : p.modeOf k = some m) : (poolStep p op).modeOf k = some m := by
  cases op with
  | set k₀ v =>
    cases hl : lookupE k₀ p.entries with
    | none =>
      have hs : poolStep p (.set k₀ v) = ⟨upsert k₀ (Entry.single v) p.entries⟩ := by
        simp [poolStep, applyPoolOp, ResultsPool.set, hl]
      rw [hs, modeOf_mk_upsert]
      by_cases hk : k = k₀
      · subst hk
        simp [ResultsPool.modeOf, hl] at h
      · simpa [hk] using h
    | some e =>
      cases e with
      | single w =>
        have hs : poolStep p (.set k₀ v) = ⟨upsert k₀ (Entry.single v) p.entries⟩ := by
          simp [poolStep, applyPoolOp, ResultsPool.set, hl]
        rw [hs, modeOf_mk_upsert]
        by_cases hk : k = k₀
        · subst hk
          simp [ResultsPool.modeOf, hl, Entry.modeOf] at h
          simp [Entry.modeOf, h]
        · simpa [hk] using h
      | multi vs =>
        have hs : poolStep p (.set k₀ v) = p := by
          simp [poolStep, applyPoolOp, ResultsPool.set, hl]
        rw [hs]
        exact h
  | add k₀ v =>
    cases hl : lookupE k₀ p.entries with
    | none =>
      have hs : poolStep p (.add k₀ v) = ⟨upsert k₀ (Entry.multi [v]) p.entries⟩ := by
        simp [poolStep, applyPoolOp, ResultsPool.add, hl]
      rw [hs, modeOf_mk_upsert]
      by_cases hk : k = k₀
      · subst hk
        simp [ResultsPool.modeOf, hl] at h
      · simpa [hk] using h
    | some e =>
      cases e with
      | single w =>
        have hs : poolStep p (.add k₀ v) = p := by
          simp [poolStep, applyPoolOp, ResultsPool.add, hl]
        rw [hs]
        exact h
      | multi vs =>
        have hs : poolStep p (.add k₀ v) = ⟨upsert k₀ (Entry.multi (vs ++ [v])) p.entries⟩ := by
          simp [poolStep, applyPoolOp, ResultsPool.add, hl]
        rw [hs, modeOf_mk_upsert]
        by_cases hk : k = k₀
        · subst hk
          simp [ResultsPool.modeOf, hl, Entry.modeOf] at h
          simp [Entry.modeOf, h]
        · simpa [hk] using h

theorem modeOf_runPoolOps (ops : List PoolOp) (p : ResultsPool) (k : String) (m : Mode)
    (h : p.modeOf k = some m) : (runPoolOps ops p).modeOf k = some m := by
  induction ops generalizing p with
  | nil => simpa [runPoolOps] using h
  | cons op t ih =>
    have : runPoolOps (op :: t) p = runPoolOps t (poolStep p op) := by
      simp [runPoolOps, List.foldl_cons]
    rw [this]
    exact ih _ (modeOf_poolStep p op k m h)

/-- C2: for every ResultsPool (every pool state arising over the pool's
lifetime, which starts empty) and every key, the single-value and
multi-value modes are mutually exclusive: once a key has been
successfully used with add, any later set on that key fails with
ModeConflict, whatever further operations ran in between, and
symmetrically once a key has been successfully used with set, any later
add on that key fails with ModeConflict. -/
theorem pool_modes_exclusive :
    (∀ (ops₁ ops₂ : List PoolOp) (k : String) (v w : Value) (p₁ : ResultsPool),
        (runPoolOps ops₁ ResultsPool.empty).add k v = .ok p₁ →
        (runPoolOps ops₂ p₁).set k w = .error .modeConflict) ∧
    (∀ (ops₁ ops₂ : List PoolOp) (k : String) (v w : Value) (p₁ : ResultsPool),
        (runPoolOps ops₁ ResultsPool.empty).set k v = .ok p₁ →
        (runPoolOps ops₂ p₁).add k w = .error .modeConflict) := by
  constructor
  · intro ops₁ ops₂ k v w p₁ h
    exact set_conflict_of_multi _ k w
      (modeOf_runPoolOps ops₂ p₁ k .multi (add_ok_modeOf _ k v p₁ h))
  · intro ops₁ ops₂ k v w p₁ h
    exact add_conflict_of_single _ k w
      (modeOf_runPoolOps ops₂ p₁ k .single (set_ok_modeOf _ k v p₁ h))

/-- Concrete instantiation of pool_modes_exclusive: on a fresh pool, add
then set on one key conflicts, and set then add on another key
conflicts. -/
theorem pool_modes_exclusive_holds :
    ((runPoolOps [] ResultsPool.empty).add "k" (Value.real 1) =
      .ok ⟨[("k", Entry.multi [Value.real 1])]⟩) ∧
    ((runPoolOps [] (⟨[("k", Entry.multi [Value.real 1])]⟩ : ResultsPool)).set "k"
      (Value.real 2) = .error .modeConflict) ∧
    ((runPoolOps [] ResultsPool.empty).set "q" (Value.real 1) =
      .ok ⟨[("q", Entry.single (Value.real 1))]⟩) ∧
    ((runPoolOps [] (⟨[("q", Entry.single (Value.real 1))]⟩ : ResultsPool)).add "q"
      (Value.real 2) = .error .modeConflict) :=
  ⟨rfl,
   pool_modes_exclusive.1 [] [] "k" (Value.real 1) (Value.real 2) _ rfl,
   rfl,
   pool_modes_exclusive.2 [] [] "q" (Value.real 1) (Value.real 2) _ rfl⟩

/-- C5: set followed by set on the same key overwrites: whenever the
first set succeeds, the second set succeeds as well and a subsequent
get returns the last written value. -/
theorem pool_set_overwrites (p : ResultsPool) (k : String) (v₁ v₂ : Value)
    (p₁ : ResultsPool) (h : p.set k v₁ = .ok p₁) :
    ∃ p₂, p₁.set k v₂ = .ok p₂ ∧ p₂.get k = .ok (.single v₂) := by
  have hp₁ : p₁.entries = upsert k (Entry.single v₁) p.entries := by
    unfold ResultsPool.set at h
    cases hl : lookupE k p.entries with
    | none => rw [hl] at h; cases h; rfl
    | some e =>
      cases e with
      | single w => rw [hl] at h; cases h; rfl
      | multi vs => rw [hl] at h; cases h
  have hl₁ : lookupE k p₁.entries = some (Entry.single v₁) := by
    rw [hp₁]; exact lookupE_upsert_self k _ p.entries
  refine ⟨⟨upsert k (Entry.single v₂) p₁.entries⟩, ?_, ?_⟩
  · unfold ResultsPool.set
    rw [hl₁]
  · unfold ResultsPool.get
    rw [lookupE_upsert_self]

/-- Concrete instantiation of pool_set_overwrites on a fresh pool. -/
theorem pool_set_overwrites_holds :
    (ResultsPool.empty.set "k" (Value.real 1) =
      .ok ⟨[("k", Entry.single (Value.real 1))]⟩) ∧
    (∃ p₂, (⟨[("k", Entry.single (Value.real 1))]⟩ : ResultsPool).set "k" (Value.real 2) =
      .ok p₂ ∧ p₂.get "k" = .ok (.single (Value.real 2))) :=
  ⟨rfl,
   pool_set_overwrites ResultsPool.empty "k" (Value.real 1) (Value.real 2) _ rfl⟩

/-! Lemmas about pool merging. -/

theorem mergeOne_ok_or_conflict (p : ResultsPool) (k : String) (e : Entry) :
    (∃ r, mergeOne p k e = .ok r) ∨ mergeOne p k e = .error .modeConflict := by
  unfold mergeOne
  cases lookupE k p.entries with
  | none => exact .inl ⟨_, rfl⟩
  | some e' =>
    cases e' with
    | single w => cases e with
      | single v => exact .inl ⟨_, rfl⟩
      | multi ws => exact .inr rfl
    | multi vs => cases e with
      | single v => exact .inr rfl
      | multi ws => exact .inl ⟨_, rfl⟩

theorem mergeInto_ok_or_conflict (l : List (String × Entry)) :
    ∀ p : ResultsPool,
      (∃ r, mergeInto p l = .ok r) ∨ mergeInto p l = .error .modeConflict := by
  induction l with
  | nil => intro p; exact .inl ⟨p, rfl⟩
  | cons hd t ih =>
    intro p
    obtain ⟨k, e⟩ := hd
    rcases mergeOne_ok_or_conflict p k e with ⟨r, hr⟩ | hr
    · have : mergeInto p ((k, e) :: t) = mergeInto r t := by
        simp [mergeInto, hr]
      rw [this]
      exact ih r
    · right
      simp [mergeInto, hr]

theorem lookupE_mergeOne_ne (p p' : ResultsPool) (k₀ : String) (e₀ : Entry)
    (h : mergeOne p k₀ e₀ = .ok p') (k : String) (hne : k ≠ k₀) :
    lookupE k p'.entries = lookupE k p.entries := by
  unfold mergeOne at h
  cases hl : lookupE k₀ p.entries with
  | none =>
    rw [hl] at h
    cases h
    cases hk : lookupE k p.entries with
    | none =>
      rw [lookupE_append_none k _ _ hk]
      simp [lookupE, Ne.symm hne]
    | some e => exact lookupE_append_some k e _ _ hk
  | some e' =>
    cases e' with
    | single w =>
      cases e₀ with
      | single v =>
        rw [hl] at h
        cases h
        exact lookupE_upsert_ne k₀ k _ hne p.entries
      | multi ws => rw [hl] at h; cases h
    | multi vs =>
      cases e₀ with
      | single v => rw [hl] at h; cases h
      | multi ws =>
        rw [hl] at h
        cases h
        exact lookupE_upsert_ne k₀ k _ hne p.entries

theorem mergeInto_ok_compat (l : List (String × Entry)) :
    ∀ (p r : ResultsPool), mergeInto p l = .ok r → (l.map Prod.fst).Nodup →
      ∀ (k : String) (e e' : Entry), (k, e) ∈ l → lookupE k p.entries = some e' →
        e'.modeOf = e.modeOf := by
  induction l with
  | nil =>
    intro p r _ _ k e e' hmem
    simp at hmem
  | cons hd t ih =>
    intro p r hmerge hnd k e e' hmem hl
    obtain ⟨k₀, e₀⟩ := hd
    rcases mergeOne_ok_or_conflict p k₀ e₀ with ⟨p₁, hp₁⟩ | hbad
    · have hrest : mergeInto p₁ t = .ok r := by
        have : mergeInto p ((k₀, e₀) :: t) = mergeInto p₁ t := by
          simp [mergeInto, hp₁]
        rw [← this]; exact hmerge
      rcases List.mem_cons.mp hmem with heq | hmem'
      · cases heq
        unfold mergeOne at hp₁
        rw [hl] at hp₁
        cases e' with
        | single w => cases e with
          | single v => rfl
          | multi ws => cases hp₁
        | multi vs => cases e with
          | single v => cases hp₁
          | multi ws => rfl
      · have hk₀ : k ≠ k₀ := by
          intro hk
          subst hk
          have : k ∈ t.map Prod.fst := List.mem_map.mpr ⟨(k, e), hmem', rfl⟩
          exact (List.nodup_cons.mp hnd).1 this
        have hl₁ : lookupE k p₁.entries = some e' := by
          rw [lookupE_mergeOne_ne p p₁ k₀ e₀ hp₁ k hk₀]
          exact hl
        exact ih p₁ r hrest (List.nodup_cons.mp hnd).2 k e e' hmem' hl₁
    · rw [mergeInto, hbad] at hmerge
      cases hmerge

theorem mergeInto_disjoint (l : List (String × Entry)) :
    ∀ p : ResultsPool, (l.map Prod.fst).Nodup →
      (∀ k ∈ l.map Prod.fst, lookupE k p.entries = none) →
      mergeInto p l = .ok ⟨p.entries ++ l⟩ := by
  induction l with
  | nil => intro p _ _; simp [mergeInto]
  | cons hd t ih =>
    intro p hnd habs
    obtain ⟨k₀, e₀⟩ := hd
    have hl₀ : lookupE k₀ p.entries = none := habs k₀ (by simp)
    have hone : mergeOne p k₀ e₀ = .ok ⟨p.entries ++ [(k₀, e₀)]⟩ := by
      unfold mergeOne
      rw [hl₀]
    have hrest :
        mergeInto (⟨p.entries ++ [(k₀, e₀)]⟩ : ResultsPool) t =
          .ok ⟨(p.entries ++ [(k₀, e₀)]) ++ t⟩ := by
      apply ih _ (List.nodup_cons.mp hnd).2
      intro k hk
      have hkp : lookupE k p.entries = none := habs k (by simp [hk])
      rw [lookupE_append_none k _ _ hkp]
      have hkk₀ : k₀ ≠ k := by
        intro h
        subst h
        exact (List.nodup_cons.mp hnd).1 hk
      simp [lookupE, hkk₀]
    have : mergeInto p ((k₀, e₀) :: t) = mergeInto (⟨p.entries ++ [(k₀, e₀)]⟩ : ResultsPool) t := by
      simp [mergeInto, hone]
    rw [this, hrest]
    simp

/-- C4: merging two pools whose key sets are disjoint produces the
union of their entries, and merging fails with ModeConflict when some
key common to both pools carries conflicting modes (single-value in the
first pool, append in the second, or conversely).  The second pool is
assumed well-formed (no duplicate keys), which holds of every pool the
operations build. -/
theorem pool_merge_spec (p q : ResultsPool) (hnd : q.keys.Nodup) :
    ((∀ k, k ∈ q.keys → k ∉ p.keys) → p.merge q = .ok ⟨p.entries ++ q.entries⟩) ∧
    (∀ (k : String) (e e' : Entry), (k, e) ∈ q.entries → lookupE k p.entries = some e' →
      e'.modeOf ≠ e.modeOf → p.merge q = .error .modeConflict) := by
  constructor
  · intro hdisj
    apply mergeInto_disjoint q.entries p hnd
    intro k hk
    exact (lookupE_eq_none_iff k p.entries).mpr (hdisj k hk)
  · intro k e e' hmem hl hne
    rcases mergeInto_ok_or_conflict q.entries p with ⟨r, hr⟩ | hr
    · exact absurd (mergeInto_ok_compat q.entries p r hr hnd k e e' hmem hl) hne
    · exact hr

/-- Concrete instantiation of pool_merge_spec: a disjoint merge yields
the union, and a merge with one key in conflicting modes fails. -/
theorem pool_merge_spec_holds :
    ((⟨[("a", Entry.single (Value.real 1))]⟩ : ResultsPool).merge
        ⟨[("b", Entry.multi [Value.real 2])]⟩ =
      .ok ⟨[("a", Entry.single (Value.real 1)), ("b", Entry.multi [Value.real 2])]⟩) ∧
    ((⟨[("c", Entry.single (Value.real 1))]⟩ : ResultsPool).merge
        ⟨[("c", Entry.multi [Value.real 2])]⟩ = .error .modeConflict) :=
  ⟨(pool_merge_spec ⟨[("a", Entry.single (Value.real 1))]⟩
      ⟨[("b", Entry.multi [Value.real 2])]⟩ (by decide)).1 (by decide),
   (pool_merge_spec ⟨[("c", Entry.single (Value.real 1))]⟩
      ⟨[("c", Entry.multi [Value.real 2])]⟩ (by decide)).2 "c"
      (Entry.multi [Value.real 2]) (Entry.single (Value.real 1))
      (by decide) (by decide) (by decide)⟩

/-- C7: create on a name that is not registered fails with
UnknownAlgorithm and leaves the factory's registry unchanged. -/
theorem factory_create_unknown (f : AlgorithmFactory) (name : String) (cfg : Config)
    (h : f.registry.lookup name = none) :
    (f.create name cfg).1 = .error .unknownAlgorithm ∧
      (f.create name cfg).2.registry = f.registry := by
  simp [AlgorithmFactory.create, h]

/-- Concrete instantiation of factory_create_unknown: the demo factory
rejects a nonexistent name and keeps its registry. -/
theorem factory_create_unknown_holds :
    (fDemo.registry.lookup "nonexistent" = none) ∧
    ((fDemo.create "nonexistent" ([] : Config)).1 = .error .unknownAlgorithm ∧
      (fDemo.create "nonexistent" ([] : Config)).2.registry = fDemo.registry) :=
  ⟨rfl, factory_create_unknown fDemo "nonexistent" ([] : Config) rfl⟩

/-! Lemmas about graph wiring. -/

theorem mem_inputsOf (g : Graph) (i e : Nat) :
    e ∈ inputsOf g i ↔ e < g.nEdges ∧ g.dst e = i := by
  simp [inputsOf, List.mem_filter, List.mem_range]

theorem mem_outputsOf (g : Graph) (i e : Nat) :
    e ∈ outputsOf g i ↔ e < g.nEdges ∧ g.src e = i := by
  simp [outputsOf, List.mem_filter, List.mem_range]

/-! Lemmas about the scheduler's selection scan. -/

theorem pickFrom_some_of (g : Graph) (s : State) :
    ∀ (fuel i k : Nat), i ≤ k → k < i + fuel →
      (∀ j, i ≤ j → j < k → runnable g s j = false) → runnable g s k = true →
      pickFrom g s i fuel = some k := by
  intro fuel
  induction fuel with
  | zero => intro i k h1 h2 _ _; omega
  | succ m ih =>
    intro i k h1 h2 hlow hk
    by_cases hik : i = k
    · subst hik
      simp [pickFrom, hk]
    · have hir : runnable g s i = false := hlow i le_rfl (by omega)
      simp [pickFrom, hir]
      exact ih (i + 1) k (by omega) (by omega) (fun j hj1 hj2 => hlow j (by omega) hj2) hk

theorem pickFrom_none_of (g : Graph) (s : State) :
    ∀ (fuel i : Nat), (∀ j, i ≤ j → j < i + fuel → runnable g s j = false) →
      pickFrom g s i fuel = none := by
  intro fuel
  induction fuel with
  | zero => intro i _; rfl
  | succ m ih =>
    intro i h
    have h0 : runnable g s i = false := h i le_rfl (by omega)
    simp [pickFrom, h0]
    exact ih (i + 1) (fun j hj1 hj2 => h j (by omega) (by omega))

theorem pickFrom_min (g : Graph) (s : State) :
    ∀ (fuel i k : Nat), pickFrom g s i fuel = some k →
      ∀ j, i ≤ j → runnable g s j = true → k ≤ j := by
  intro fuel
  induction fuel with
  | zero => intro i k h; simp [pickFrom] at h
  | succ m ih =>
    intro i k hp j hij hj
    by_cases hi : runnable g s i = true
    · simp [pickFrom, hi] at hp
      omega
    · have hi' : runnable g s i = false := by
        cases h : runnable g s i
        · rfl
        · exact absurd h hi
      simp [pickFrom, hi'] at hp
      have hij' : i + 1 ≤ j := by
        rcases Nat.lt_or_ge i j with h | h
        · omega
        · have : i = j := by omega
          subst this
          exact absurd hj hi
      exact ih (i + 1) k hp j hij' hj

/-! Lemmas about the scheduling invariant. -/

theorem inv_pick (g : Graph) (k : Nat) (s : State) (hwf : WellFormed g)
    (hinv : Inv g k s) (hk : k < g.n) : pick g s = some k := by
  obtain ⟨hkn, hfin, heos, hq⟩ := hinv
  apply pickFrom_some_of g s g.n 0 k (Nat.zero_le k) (by omega)
  · intro j _ hj
    have : s.finished j = true := (hfin j).mpr hj
    simp [runnable, this]
  · have hnf : s.finished k = false := by
      cases hf : s.finished k
      · rfl
      · exact absurd ((hfin k).mp hf) (lt_irrefl k)
    cases hkind : g.kind k with
    | source ty d => simp [runnable, hnf, readyB, hkind]
    | proc a b f =>
      have hins : inputsOf g k ≠ [] := hwf.2.2.1 k hk (by rw [hkind]; rfl)
      by_cases hall : (inputsOf g k).all (fun e => !(s.queue e).isEmpty) = true
      · simp [runnable, hnf, readyB, hkind, hall]
      · rw [List.all_eq_true] at hall
        push_neg at hall
        obtain ⟨e, he, hne⟩ := hall
        have hempty : (s.queue e).isEmpty = true := by
          cases h : (s.queue e).isEmpty
          · exact absurd (by simp [h]) hne
          · rfl
        have he' := (mem_inputsOf g k e).mp he
        have heose : s.eos e = true := by
          apply (heos e he'.1).mpr
          have := (hwf.1 e he'.1).1
          omega
        have hany : (inputsOf g k).any (fun e => (s.queue e).isEmpty && s.eos e) = true :=
          List.any_eq_true.mpr ⟨e, he, by simp [hempty, heose]⟩
        simp [runnable, hnf, readyB, hkind, hany]
    | sink a key =>
      have hins : inputsOf g k ≠ [] := hwf.2.2.1 k hk (by rw [hkind]; rfl)
      by_cases hall : (inputsOf g k).all (fun e => !(s.queue e).isEmpty) = true
      · simp [runnable, hnf, readyB, hkind, hall]
      · rw [List.all_eq_true] at hall
        push_neg at hall
        obtain ⟨e, he, hne⟩ := hall
        have hempty : (s.queue e).isEmpty = true := by
          cases h : (s.queue e).isEmpty
          · exact absurd (by simp [h]) hne
          · rfl
        have he' := (mem_inputsOf g k e).mp he
        have heose : s.eos e = true := by
          apply (heos e he'.1).mpr
          have := (hwf.1 e he'.1).1
          omega
        have hany : (inputsOf g k).any (fun e => (s.queue e).isEmpty && s.eos e) = true :=
          List.any_eq_true.mpr ⟨e, he, by simp [hempty, heose]⟩
        simp [runnable, hnf, readyB, hkind, hany]

theorem step_at (g : Graph) (k : Nat) (s : State) (hwf : WellFormed g)
    (hinv : Inv g k s) (hk : k < g.n) : step g s = .next (fire g s k) := by
  simp [step, inv_pick g k s hwf hinv hk]

theorem step_done_top (g : Graph) (s : State) (hinv : Inv g g.n s) :
    step g s = .done s := by
  have hpick : pick g s = none := by
    apply pickFrom_none_of g s g.n 0
    intro j _ hj
    have : s.finished j = true := (hinv.2.1 j).mpr (by omega)
    simp [runnable, this]
  have hall : allFinishedB g s = true := by
    rw [allFinishedB, List.all_eq_true]
    intro i hi
    exact (hinv.2.1 i).mpr (List.mem_range.mp hi)
  simp [step, hpick, hall]

theorem inv_init (g : Graph) : Inv g 0 (initState g) := by
  refine ⟨Nat.zero_le _, ?_, ?_, ?_⟩
  · intro i
    simp [initState]
  · intro e _
    simp [initState]
  · intro e _ h
    omega

theorem runFor_succ_next (g : Graph) (s s' : State) (fuel : Nat)
    (h : step g s = .next s') : runFor g (fuel + 1) s = runFor g fuel s' := by
  simp [runFor, h]

/-! Shapes taken by one process() invocation, by node kind and branch. -/

theorem fire_source_emit (g : Graph) (s : State) (k : Nat) (ty : VType)
    (d : List Value) (v : Value) (rest : List Value) (hkind : g.kind k = .source ty d)
    (hrem : s.remaining k = v :: rest) :
    fire g s k =
      { s with
        queue := fun e => if e ∈ outputsOf g k then s.queue e ++ [v] else s.queue e
        remaining := fun j => if j = k then rest else s.remaining j } := by
  simp [fire, hkind, hrem]

theorem fire_source_end (g : Graph) (s : State) (k : Nat) (ty : VType)
    (d : List Value) (hkind : g.kind k = .source ty d) (hrem : s.remaining k = []) :
    fire g s k =
      { s with
        eos := fun e => if e ∈ outputsOf g k then true else s.eos e
        finished := fun j => if j = k then true else s.finished j } := by
  simp [fire, hkind, hrem]

theorem fire_proc_round (g : Graph) (s : State) (k : Nat) (a b : VType)
    (f : List Value → Value) (hkind : g.kind k = .proc a b f)
    (hall : (inputsOf g k).all (fun e => !(s.queue e).isEmpty) = true) :
    fire g s k =
      { s with
        queue := fun e =>
          if e ∈ inputsOf g k then (s.queue e).tail
          else if e ∈ outputsOf g k then
            s.queue e ++ [f ((inputsOf g k).map fun e2 => (s.queue e2).headD (Value.real 0))]
          else s.queue e } := by
  simp [fire, hkind, hall]

theorem fire_proc_end (g : Graph) (s : State) (k : Nat) (a b : VType)
    (f : List Value → Value) (hkind : g.kind k = .proc a b f)
    (hall : ¬(inputsOf g k).all (fun e => !(s.queue e).isEmpty) = true) :
    fire g s k =
      { s with
        queue := fun e => if e ∈ inputsOf g k then [] else s.queue e
        eos := fun e => if e ∈ outputsOf g k then true else s.eos e
        finished := fun j => if j = k then true else s.finished j } := by
  simp [fire, hkind, hall]

theorem fire_sink_round (g : Graph) (s : State) (k : Nat) (a : VType)
    (key : String) (hkind : g.kind k = .sink a key)
    (hall : (inputsOf g k).all (fun e => !(s.queue e).isEmpty) = true) :
    fire g s k =
      { s with
        queue := fun e => if e ∈ inputsOf g k then (s.queue e).tail else s.queue e
        pool :=
          ((inputsOf g k).map fun e2 => (s.queue e2).headD (Value.real 0)).foldl
            (fun p v => addKeep p key v) s.pool } := by
  simp [fire, hkind, hall]

theorem fire_sink_end (g : Graph) (s : State) (k : Nat) (a : VType)
    (key : String) (hkind : g.kind k = .sink a key)
    (hall : ¬(inputsOf g k).all (fun e => !(s.queue e).isEmpty) = true) :
    fire g s k =
      { s with
        queue := fun e => if e ∈ inputsOf g k then [] else s.queue e
        eos := fun e => if e ∈ outputsOf g k then true else s.eos e
        finished := fun j => if j = k then true else s.finished j } := by
  simp [fire, hkind, hall]

/-! Preservation of the scheduling invariant by one scheduler step. -/

theorem finish_finished_clause (s : State) (k : Nat)
    (hfin : ∀ i, s.finished i = true ↔ i < k) (i : Nat) :
    (if i = k then true else s.finished i) = true ↔ i < k + 1 := by
  by_cases hi : i = k
  · subst hi
    simp
  · rw [if_neg hi, hfin i]
    omega

theorem finish_eos_clause (g : Graph) (s : State) (k : Nat)
    (heos : ∀ e, e < g.nEdges → (s.eos e = true ↔ g.src e < k)) (e : Nat)
    (he : e < g.nEdges) :
    ((if e ∈ outputsOf g k then true else s.eos e) = true ↔ g.src e < k + 1) := by
  by_cases hmem : e ∈ outputsOf g k
  · have hsrc := ((mem_outputsOf g k e).mp hmem).2
    rw [if_pos hmem]
    simp
    omega
  · have hsrcne : g.src e ≠ k := fun h => hmem ((mem_outputsOf g k e).mpr ⟨he, h⟩)
    rw [if_neg hmem, heos e he]
    omega

theorem fire_preserves (g : Graph) (k : Nat) (s : State) (hwf : WellFormed g)
    (hinv : Inv g k s) (hk : k < g.n) :
    Inv g (k + 1) (fire g s k) ∨
      (Inv g k (fire g s k) ∧ cost g (fire g s k) k < cost g s k) := by
  obtain ⟨hkn, hfin, heos, hq⟩ := hinv
  cases hkind : g.kind k with
  | source ty d =>
    cases hrem : s.remaining k with
    | cons v rest =>
      right
      rw [fire_source_emit g s k ty d v rest hkind hrem]
      constructor
      · refine ⟨hkn, hfin, heos, ?_⟩
        intro e he hde
        show (if e ∈ outputsOf g k then s.queue e ++ [v] else s.queue e) = []
        have hno : e ∉ outputsOf g k := by
          intro hmem
          have hsrc := ((mem_outputsOf g k e).mp hmem).2
          have := (hwf.1 e he).1
          omega
        rw [if_neg hno]
        exact hq e he hde
      · simp [cost, hkind, hrem]
    | nil =>
      left
      rw [fire_source_end g s k ty d hkind hrem]
      refine ⟨by omega, ?_, ?_, ?_⟩
      · intro i
        exact finish_finished_clause s k hfin i
      · intro e he
        exact finish_eos_clause g s k heos e he
      · intro e he hde
        show s.queue e = []
        rcases Nat.lt_succ_iff_lt_or_eq.mp hde with h | h
        · exact hq e he h
        · exfalso
          have hsrcinputs : inputsOf g k = [] := hwf.2.1 k hk (by rw [hkind]; rfl)
          have hmem : e ∈ inputsOf g k := (mem_inputsOf g k e).mpr ⟨he, h⟩
          rw [hsrcinputs] at hmem
          exact (List.not_mem_nil e) hmem
  | proc a b f =>
    by_cases hall : (inputsOf g k).all (fun e => !(s.queue e).isEmpty) = true
    · right
      rw [fire_proc_round g s k a b f hkind hall]
      constructor
      · refine ⟨hkn, hfin, heos, ?_⟩
        intro e he hde
        show (if e ∈ inputsOf g k then (s.queue e).tail
          else if e ∈ outputsOf g k then
            s.queue e ++ [f ((inputsOf g k).map fun e2 => (s.queue e2).headD (Value.real 0))]
          else s.queue e) = []
        have hnin : e ∉ inputsOf g k := by
          intro hmem
          have := ((mem_inputsOf g k e).mp hmem).2
          omega
        have hnout : e ∉ outputsOf g k := by
          intro hmem
          have h2 := ((mem_outputsOf g k e).mp hmem).2
          have h3 := (hwf.1 e he).1
          omega
        rw [if_neg hnin, if_neg hnout]
        exact hq e he hde
      · have hins : inputsOf g k ≠ [] := hwf.2.2.1 k hk (by rw [hkind]; rfl)
        simp only [cost, hkind]
        apply List.sum_lt_sum
        · intro e he
          show (if e ∈ inputsOf g k then (s.queue e).tail
            else if e ∈ outputsOf g k then
              s.queue e ++ [f ((inputsOf g k).map fun e2 => (s.queue e2).headD (Value.real 0))]
            else s.queue e).length ≤ (s.queue e).length
          rw [if_pos he]
          simp [List.length_tail]
        · obtain ⟨e, he⟩ := List.exists_mem_of_ne_nil _ hins
          refine ⟨e, he, ?_⟩
          have hne : s.queue e ≠ [] := by
            intro h0
            have := List.all_eq_true.mp hall e he
            rw [h0] at this
            simp at this
          show (if e ∈ inputsOf g k then (s.queue e).tail
            else if e ∈ outputsOf g k then
              s.queue e ++ [f ((inputsOf g k).map fun e2 => (s.queue e2).headD (Value.real 0))]
            else s.queue e).length < (s.queue e).length
          rw [if_pos he]
          have hpos : 0 < (s.queue e).length := List.length_pos.mpr hne
          simp [List.length_tail]
          omega
    · left
      rw [fire_proc_end g s k a b f hkind hall]
      refine ⟨by omega, ?_, ?_, ?_⟩
      · intro i
        exact finish_finished_clause s k hfin i
      · intro e he
        exact finish_eos_clause g s k heos e he
      · intro e he hde
        show (if e ∈ inputsOf g k then [] else s.queue e) = []
        by_cases hmem : e ∈ inputsOf g k
        · rw [if_pos hmem]
        · rw [if_neg hmem]
          rcases Nat.lt_succ_iff_lt_or_eq.mp hde with h | h
          · exact hq e he h
          · exact absurd ((mem_inputsOf g k e).mpr ⟨he, h⟩) hmem
  | sink a key =>
    by_cases hall : (inputsOf g k).all (fun e => !(s.queue e).isEmpty) = true
    · right
      rw [fire_sink_round g s k a key hkind hall]
      constructor
      · refine ⟨hkn, hfin, heos, ?_⟩
        intro e he hde
        show (if e ∈ inputsOf g k then (s.queue e).tail else s.queue e) = []
        have hnin : e ∉ inputsOf g k := by
          intro hmem
          have := ((mem_inputsOf g k e).mp hmem).2
          omega
        rw [if_neg hnin]
        exact hq e he hde
      · have hins : inputsOf g k ≠ [] := hwf.2.2.1 k hk (by rw [hkind]; rfl)
        simp only [cost, hkind]
        apply List.sum_lt_sum
        · intro e he
          show (if e ∈ inputsOf g k then (s.queue e).tail else s.queue e).length ≤
            (s.queue e).length
          rw [if_pos he]
          simp [List.length_tail]
        · obtain ⟨e, he⟩ := List.exists_mem_of_ne_nil _ hins
          refine ⟨e, he, ?_⟩
          have hne : s.queue e ≠ [] := by
            intro h0
            have := List.all_eq_true.mp hall e he
            rw [h0] at this
            simp at this
          show (if e ∈ inputsOf g k then (s.queue e).tail else s.queue e).length <
            (s.queue e).length
          rw [if_pos he]
          have hpos : 0 < (s.queue e).length := List.length_pos.mpr hne
          simp [List.length_tail]
          omega
    · left
      rw [fire_sink_end g s k a key hkind hall]
      refine ⟨by omega, ?_, ?_, ?_⟩
      · intro i
        exact finish_finished_clause s k hfin i
      · intro e he
        exact finish_eos_clause g s k heos e he
      · intro e he hde
        show (if e ∈ inputsOf g k then [] else s.queue e) = []
        by_cases hmem : e ∈ inputsOf g k
        · rw [if_pos hmem]
        · rw [if_neg hmem]
          rcases Nat.lt_succ_iff_lt_or_eq.mp hde with h | h
          · exact hq e he h
          · exact absurd ((mem_inputsOf g k e).mpr ⟨he, h⟩) hmem

/-! Termination of the scheduler on well-formed graphs. -/

theorem reach_done (g : Graph) (hwf : WellFormed g) :
    ∀ d k s, g.n - k ≤ d → Inv g k s →
      ∃ fuel t, runFor g fuel s = .done t ∧ Inv g g.n t := by
  intro d
  induction d with
  | zero =>
    intro k s hd hinv
    have hk : k = g.n := by
      have := hinv.1
      omega
    subst hk
    exact ⟨1, s, by simp [runFor, step_done_top g s hinv], hinv⟩
  | succ m ih =>
    intro k s hd hinv
    by_cases hk : k < g.n
    · have inner : ∀ c s, Inv g k s → cost g s k ≤ c →
          ∃ fuel t, runFor g fuel s = .done t ∧ Inv g g.n t := by
        intro c
        induction c with
        | zero =>
          intro s hinv hc
          have hstep := step_at g k s hwf hinv hk
          rcases fire_preserves g k s hwf hinv hk with hnew | ⟨_, hlt⟩
          · obtain ⟨fuel, t, hrun, hinvt⟩ := ih (k + 1) (fire g s k) (by omega) hnew
            exact ⟨fuel + 1, t, by rw [runFor_succ_next g s _ fuel hstep]; exact hrun, hinvt⟩
          · omega
        | succ c ihc =>
          intro s hinv hc
          have hstep := step_at g k s hwf hinv hk
          rcases fire_preserves g k s hwf hinv hk with hnew | ⟨hinv', hlt⟩
          · obtain ⟨fuel, t, hrun, hinvt⟩ := ih (k + 1) (fire g s k) (by omega) hnew
            exact ⟨fuel + 1, t, by rw [runFor_succ_next g s _ fuel hstep]; exact hrun, hinvt⟩
          · obtain ⟨fuel, t, hrun, hinvt⟩ := ihc (fire g s k) hinv' (by omega)
            exact ⟨fuel + 1, t, by rw [runFor_succ_next g s _ fuel hstep]; exact hrun, hinvt⟩
      exact inner (cost g s k) s hinv le_rfl
    · have hk' : k = g.n := by
        have := hinv.1
        omega
      subst hk'
      exact ⟨1, s, by simp [runFor, step_done_top g s hinv], hinv⟩

theorem no_stall (g : Graph) (hwf : WellFormed g) :
    ∀ fuel k s t, Inv g k s → runFor g fuel s ≠ .stalled t := by
  intro fuel
  induction fuel with
  | zero =>
    intro k s t _ h
    simp [runFor] at h
  | succ m ih =>
    intro k s t hinv h
    by_cases hk : k < g.n
    · have hstep := step_at g k s hwf hinv hk
      rw [runFor_succ_next g s _ m hstep] at h
      rcases fire_preserves g k s hwf hinv hk with hnew | ⟨hinv', _⟩
      · exact ih (k + 1) _ t hnew h
      · exact ih k _ t hinv' h
    · have hk' : k = g.n := by
        have := hinv.1
        omega
      subst hk'
      simp [runFor, step_done_top g s hinv] at h

/-- C1: for every acyclic, type-consistent graph whose sources are
finite (finiteness is structural: source data are lists), run()
terminates without a StalledGraph error, and at termination every node
is Finished and every buffer satisfies isDrained().  Acyclicity is the
structural src < dst ordering required by WellFormed, and WellFormed
additionally captures the finalize() checks of the spec (no input into
a source, no processing or sink node without an input, no output out of
a sink). -/
theorem graph_run_terminates (g : Graph) (hwf : WellFormed g) (_hwt : WellTyped g) :
    (∃ fuel t, runFor g fuel (initState g) = .done t ∧
      (∀ i, i < g.n → t.finished i = true) ∧
      (∀ e, e < g.nEdges → t.isDrained e)) ∧
    (∀ fuel t, runFor g fuel (initState g) ≠ .stalled t) := by
  constructor
  · obtain ⟨fuel, t, hrun, hinv⟩ :=
      reach_done g hwf g.n 0 (initState g) (by omega) (inv_init g)
    refine ⟨fuel, t, hrun, ?_, ?_⟩
    · intro i hi
      exact (hinv.2.1 i).mpr hi
    · intro e he
      constructor
      · exact hinv.2.2.2 e he (hwf.1 e he).2
      · apply (hinv.2.2.1 e he).mpr
        have h1 := (hwf.1 e he).1
        have h2 := (hwf.1 e he).2
        omega
  · intro fuel t
    exact no_stall g hwf fuel 0 (initState g) t (inv_init g)

/-- Concrete instantiation of graph_run_terminates: the demo pipeline
is well-formed and type-consistent, and its run does not stall. -/
theorem graph_run_terminates_holds :
    WellFormed gDemo ∧ WellTyped gDemo ∧
      runFor gDemo 20 (initState gDemo) ≠ .stalled demoEnd1 :=
  ⟨by decide, by decide,
   (graph_run_terminates gDemo (by decide) (by decide)).2 20 demoEnd1⟩

/-- C3: the scenario pipeline (source emitting 1, 2, 3, identity
processing node, sink appending under test.values) ends with the pool
mapping test.values to exactly the sequence 1, 2, 3. -/
theorem demo_pipeline_results :
    runToPool gDemo 20 =
      some ⟨[("test.values", Entry.multi [Value.real 1, Value.real 2, Value.real 3])]⟩ ∧
    ResultsPool.get
        ⟨[("test.values", Entry.multi [Value.real 1, Value.real 2, Value.real 3])]⟩
        "test.values" =
      .ok (.multi [Value.real 1, Value.real 2, Value.real 3]) := by
  constructor
  · decide
  · rfl

/-! Determinism of the scheduler. -/

theorem runEnds_det (g : Graph) (s t₁ t₂ : State)
    (h₁ : RunEnds g s t₁) (h₂ : RunEnds g s t₂) : t₁ = t₂ := by
  induction h₁ generalizing t₂ with
  | fin s t hstep =>
    cases h₂ with
    | fin _ _ hstep₂ =>
      rw [hstep] at hstep₂
      cases hstep₂
      rfl
    | more _ s' _ hstep₂ _ =>
      rw [hstep] at hstep₂
      cases hstep₂
  | more s s' t hstep _ ih =>
    cases h₂ with
    | fin _ _ hstep₂ =>
      rw [hstep] at hstep₂
      cases hstep₂
    | more _ s'' _ hstep₂ hrest =>
      rw [hstep] at hstep₂
      cases hstep₂
      exact ih _ hrest

theorem runFor_done_runEnds (g : Graph) :
    ∀ (fuel : Nat) (s t : State), runFor g fuel s = .done t → RunEnds g s t := by
  intro fuel
  induction fuel with
  | zero =>
    intro s t h
    simp [runFor] at h
  | succ m ih =>
    intro s t h
    cases hstep : step g s with
    | next s' =>
      rw [runFor_succ_next g s s' m hstep] at h
      exact .more s s' t hstep (ih s' t h)
    | done s' =>
      have : Outcome.done s' = Outcome.done t := by
        rw [← h]
        simp [runFor, hstep]
      cases this
      exact .fin s t hstep
    | stalled s' =>
      simp [runFor, hstep] at h

/-- C6: the scheduler is deterministic.  Its tie-break among
simultaneously runnable nodes picks the least node in the
topological/creation order, and any two terminating runs of the same
graph from the same initial state end with identical ResultsPool
contents, so a fresh run on identical input reproduces the pool. -/
theorem run_reproducible (g : Graph) :
    (∀ (s : State) (i j : Nat), pick g s = some i → runnable g s j = true → i ≤ j) ∧
    (∀ t₁ t₂ : State, RunEnds g (initState g) t₁ → RunEnds g (initState g) t₂ →
      t₁.pool = t₂.pool) := by
  constructor
  · intro s i j hp hj
    exact pickFrom_min g s g.n 0 i hp j (Nat.zero_le j) hj
  · intro t₁ t₂ h₁ h₂
    rw [runEnds_det g (initState g) t₁ t₂ h₁ h₂]

/-- Concrete instantiation of run_reproducible: two bounded runs of the
demo pipeline end with the same pool, and the scheduler's first choice
on the initial state is the least runnable node. -/
theorem run_reproducible_holds :
    demoEnd1.pool = demoEnd2.pool ∧ (0 : Nat) ≤ 0 :=
  ⟨(run_reproducible gDemo).2 demoEnd1 demoEnd2
      (runFor_done_runEnds gDemo 20 (initState gDemo) demoEnd1 rfl)
      (runFor_done_runEnds gDemo 25 (initState gDemo) demoEnd2 rfl),
   (run_reproducible gDemo).1 (initState gDemo) 0 0 rfl rfl⟩

/-! Properties of the MusicDescriptorSet declaration itself. -/

/-- C8 counterexample: constructing MusicDescriptorSet with a
configuration bag holding an unrecognized option does not fail with
InvalidConfiguration; the class declares no constructors at all, and
construction succeeds with the default empty options whatever the bag
contains. -/
theorem descriptor_config_cx :
    (musicDescriptorSetMembers.filter (fun m => m.kind == MemberKind.ctor) = []) ∧
    MusicDescriptorSet.construct [("bogusOption", Value.real 1)] =
      .ok ⟨ResultsPool.empty⟩ ∧
    MusicDescriptorSet.construct [("bogusOption", Value.real 1)] ≠
      .error .invalidConfiguration :=
  ⟨by decide, rfl, fun h => Except.noConfusion h⟩

/-- C8 amended: MusicDescriptorSet declares no constructors and no
member functions; its only construction is the implicit default one,
which ignores any configuration bag, performs no option validation,
never fails with InvalidConfiguration, and leaves options as the
default-constructed empty Pool. -/
theorem descriptor_no_config_validation :
    (musicDescriptorSetMembers.filter (fun m => m.kind == MemberKind.ctor) = []) ∧
    (musicDescriptorSetMembers.filter (fun m => m.kind == MemberKind.memberFun) = []) ∧
    (∀ cfg : Config, MusicDescriptorSet.construct cfg = .ok ⟨ResultsPool.empty⟩) ∧
    MusicDescriptorSet.defaultConstruct.options = ResultsPool.empty :=
  ⟨by decide, by decide, fun _ => rfl, rfl⟩

/-- C9 counterexample: in the header, nameSpace is a static (class
level) member, not per-instance state; two distinct instances observe
the one class constant, so an instance cannot carry its own prefix. -/
theorem descriptor_namespace_cx :
    ((musicDescriptorSetMembers.filter (fun m => m.name == "nameSpace")).map
      CppMember.isStatic = [true]) ∧
    MusicDescriptorSet.nameSpaceOf "lowlevel"
        ⟨⟨[("x", Entry.single (Value.real 1))]⟩⟩ =
      MusicDescriptorSet.nameSpaceOf "lowlevel" ⟨ResultsPool.empty⟩ :=
  ⟨by decide, rfl⟩

/-- C9 amended: MusicDescriptorSet stores its namespace as a public
static class-level constant; the only per-instance state is options, so
every instance of the class shares the single namespace value and two
instances cannot hold distinct prefixes. -/
theorem descriptor_namespace_static :
    ((musicDescriptorSetMembers.filter (fun m => m.name == "nameSpace")).map
      (fun m => (m.isStatic, m.access, m.kind)) =
        [(true, Access.acPublic, MemberKind.dataMember)]) ∧
    (∀ (ns : String) (a b : MusicDescriptorSet),
      MusicDescriptorSet.nameSpaceOf ns a = MusicDescriptorSet.nameSpaceOf ns b) ∧
    ((musicDescriptorSetMembers.filter (fun m => !m.isStatic)).map CppMember.name =
      ["options"]) :=
  ⟨by decide, fun _ _ _ => rfl, by decide⟩

/-- C10: MusicDescriptorSet's public interface is exactly the static
nameSpace constant; the class declares no constructors and no member
functions, its only instance state is the protected options pool, so
nothing reachable through the public interface reads or mutates an
instance's options, and default construction validates nothing and
leaves options as the default-constructed empty Pool. -/
theorem descriptor_interface_minimal :
    (musicDescriptorSetMembers.filter (fun m => m.access == Access.acPublic) =
      [⟨"nameSpace", .acPublic, true, .dataMember⟩]) ∧
    (musicDescriptorSetMembers.filter (fun m => m.kind == MemberKind.ctor) = []) ∧
    (musicDescriptorSetMembers.filter (fun m => m.kind == MemberKind.memberFun) = []) ∧
    (musicDescriptorSetMembers.filter (fun m => !m.isStatic) =
      [⟨"options", .acProtected, false, .dataMember⟩]) ∧
    MusicDescriptorSet.defaultConstruct.options = ResultsPool.empty := by
  refine ⟨by decide, by decide, by decide, by decide, rfl⟩

end Essentia
